import Mathlib

/-!
Verification development for the PyAudioController repository
(`src/main.py`, class `GuitarHeroController`).

The pitch-to-action pipeline of `process_audio` is embedded shallowly:

* The power spectrum (`magnitudes = |rfft(windowed frame)|**2`) is taken as
  the input of `process_frame`; the windowing and FFT that produce it are
  upstream of every property stated here.
* Python floats are modelled as real numbers, except where IEEE non-finite
  values matter: the quadratic-interpolation step can divide by zero, which
  numpy turns into `inf`/`-inf`/`nan` rather than raising.  The type
  `FloatVal` models exactly that distinction.
* Python `int(x)` on the nonnegative quotients appearing here is Nat
  (floor) division; `int(len(m) * 0.8)` is modelled as `4 * len / 5`,
  which agrees with the float computation for the spectrum lengths that
  occur (powers of two divided by two, plus one).
* `self.active_actions` is a Python `set` mutated only by adding fresh ids
  and by clearing; it is modelled as a duplicate-free list in insertion
  order.  All properties stated about it are order-independent.
* Frequencies appearing as binding keys in `note_map` come from the JSON
  configuration and are decimal literals, modelled as rationals so that
  dictionary lookup is decidable; the detected frequency is a real number.
* Exceptions (`KeyError` on a failed `note_map` lookup, `ValueError` from
  `np.argmax` on an empty slice) are modelled by `Option`: a `none` result
  of `trigger_action`, `run_frames` or `process_frame` is a raised error.
* The console visualisation, the emoji note display and the rolling
  `freq_history` deque are write-only state with no effect on detection or
  on the emitted events; they are omitted.
-/

namespace PyAudio

/-- Kind of a bound action: `action["type"]` is `"key"` or `"mouse"`. -/
inductive ActType where
  | key
  | mouse
  deriving DecidableEq

/-- Mouse buttons used by the controller (`pynput` `Button.left`/`Button.right`). -/
inductive MButton where
  | left
  | right
  deriving DecidableEq

/-- One binding value of `note_map`: the `{"type": ..., "action": ...}` record. -/
structure ActionDef where
  type : ActType
  act : String
  deriving DecidableEq

/-- String form of the action type, as interpolated into `action_id`. -/
def typeName : ActType → String
  | ActType.key => "key"
  | ActType.mouse => "mouse"

/-- The id `f"{action['type']}_{action['action']}"` stored in `active_actions`. -/
def actionId (a : ActionDef) : String :=
  typeName a.type ++ "_" ++ a.act

/-- An injector call made by the controller: `keyboard.press/release` or
`mouse.press/release`. -/
inductive Event where
  | keyPress (k : String)
  | keyRelease (k : String)
  | mousePress (b : MButton)
  | mouseRelease (b : MButton)
  deriving DecidableEq

/-- True on the two press-shaped injector calls. -/
def Event.isPress : Event → Bool
  | Event.keyPress _ => true
  | Event.mousePress _ => true
  | _ => false

/-- True on the two release-shaped injector calls. -/
def Event.isRelease : Event → Bool
  | Event.keyRelease _ => true
  | Event.mouseRelease _ => true
  | _ => false

/-- The press event `trigger_action` emits for an action record: keyboard
press of the action string, or mouse press of `Button.left` when the action
string is `"left"` and `Button.right` otherwise. -/
def press_event (a : ActionDef) : Event :=
  match a.type with
  | ActType.key => Event.keyPress a.act
  | ActType.mouse => Event.mousePress (if a.act = "left" then MButton.left else MButton.right)

/-- The release event that textually matches `press_event a`: same device and
same identifier.  This is the "matching release" of the specification, not a
function of the source; the source reconstructs releases from the stored id
via `split('_')` (see `releaseEvents`). -/
def match_release (a : ActionDef) : Event :=
  match a.type with
  | ActType.key => Event.keyRelease a.act
  | ActType.mouse => Event.mouseRelease (if a.act = "left" then MButton.left else MButton.right)

/-- Split of a character list at `'_'`, accumulator style; models Python
`str.split('_')` (single-character separator, no limit). -/
def split_chars : List Char → List Char → List (List Char)
  | [], acc => [acc.reverse]
  | c :: cs, acc =>
      if c = '_' then acc.reverse :: split_chars cs [] else split_chars cs (c :: acc)

/-- Python `action_id.split('_')`. -/
def split_us (s : String) : List String :=
  (split_chars s.toList []).map (fun l => String.mk l)

/-- The injector calls `release_actions` makes for one stored id: it splits
the id at `'_'`, dispatches on `parts[0]` (`"key"`, elif `"mouse"`, else
nothing) and uses `parts[1]` as the identifier. -/
def releaseEvents (id : String) : List Event :=
  match split_us id with
  | t :: r :: _ =>
      if t = "key" then [Event.keyRelease r]
      else if t = "mouse" then
        [Event.mouseRelease (if r = "left" then MButton.left else MButton.right)]
      else []
  | _ => []

/-- Python dict lookup `self.note_map[freq]`, `none` for a `KeyError`. -/
def lookupNote (nm : List (ℚ × ActionDef)) (f : ℚ) : Option ActionDef :=
  (nm.find? (fun p => decide (p.1 = f))).map (fun p => p.2)

/-- `trigger_action`: look the resolved frequency up in `note_map`; if the
action id is not yet active, emit its press event and add the id.  Returns
the new active set and the emitted events (`none` = `KeyError`). -/
def trigger_action (nm : List (ℚ × ActionDef)) (active : List String) (freq : ℚ) :
    Option (List String × List Event) :=
  match lookupNote nm freq with
  | none => none
  | some a =>
      if actionId a ∈ active then some (active, [])
      else some (active ++ [actionId a], [press_event a])

/-- `release_actions`: emit the release events for every currently active id
and clear the set. -/
def release_actions (active : List String) : List String × List Event :=
  ([], active.flatMap releaseEvents)

/-- Tail of `process_audio` (lines 101-105): a frame's resolved note is
dispatched to `trigger_action`, and a frame with no resolved note to
`release_actions`. -/
def handle_detected (nm : List (ℚ × ActionDef)) (active : List String) :
    Option ℚ → Option (List String × List Event)
  | some f => trigger_action nm active f
  | none => some (release_actions active)

/-- Run a sequence of per-frame resolution results through the controller,
accumulating the emitted injector calls. -/
def run_frames (nm : List (ℚ × ActionDef)) :
    List (Option ℚ) → List String → Option (List String × List Event)
  | [], active => some (active, [])
  | r :: rs, active =>
      match handle_detected nm active r with
      | none => none
      | some (st1, evs1) =>
          match run_frames nm rs st1 with
          | none => none
          | some (st2, evs2) => some (st2, evs1 ++ evs2)

/-- The action records bound in a configuration. -/
def acts (nm : List (ℚ × ActionDef)) : List ActionDef :=
  nm.map (fun p => p.2)

/-- Number of press events for action `a` in an event trace. -/
def press_count (a : ActionDef) (evs : List Event) : ℕ :=
  evs.countP (fun e => decide (e = press_event a))

/-- Number of matching release events for action `a` in an event trace. -/
def release_count (a : ActionDef) (evs : List Event) : ℕ :=
  evs.countP (fun e => decide (e = match_release a))

/-- Scan an event trace tracking whether action `a` is held (`p`); `none` the
moment `a` is pressed while held or released while not held (a double press
or double release). -/
def scan_pressed (a : ActionDef) : List Event → Bool → Option Bool
  | [], p => some p
  | e :: rest, p =>
      if e = press_event a then
        (if p then none else scan_pressed a rest true)
      else if e = match_release a then
        (if p then scan_pressed a rest false else none)
      else scan_pressed a rest p

/-- Well-formed controller state: a duplicate-free set of ids of bound
actions.  Every state reachable from the empty startup state is such. -/
def wf (nm : List (ℚ × ActionDef)) (st : List String) : Prop :=
  st.Nodup ∧ ∀ id ∈ st, ∃ a ∈ acts nm, id = actionId a

/-! ## Note resolver (`find_closest_note`, lines 107-118)

Binding frequencies (the keys of `note_map`, in insertion order) are the
list argument; the detected frequency is a real number. -/

/-- Pitch distance `1200 * np.log2(note_freq / freq)` of one binding
frequency from the detected frequency, in cents. -/
noncomputable def cents (noteFreq : ℚ) (freq : ℝ) : ℝ :=
  1200 * Real.logb 2 ((noteFreq : ℝ) / freq)

/-- Inner loop of the harmonic check: the detected frequency is strictly
within 10 Hz of `note_freq * harmonic` for some harmonic in `[2, 3, 0.5]`. -/
def harmonic_hit (freq : ℝ) (nf : ℚ) : Prop :=
  |freq - (nf : ℝ) * 2| < 10 ∨ |freq - (nf : ℝ) * 3| < 10 ∨ |freq - (nf : ℝ) * 0.5| < 10

open Classical in
/-- The harmonic loop of `find_closest_note`: for each binding frequency in
order, return the binding as soon as one of its harmonic windows contains
the detected frequency. -/
noncomputable def harmonic_scan (freq : ℝ) : List ℚ → Option ℚ
  | [] => none
  | nf :: rest => if harmonic_hit freq nf then some nf else harmonic_scan freq rest

/-- `frequencies[np.argmin(np.abs(cents))]`: the first binding frequency
whose absolute cents distance from the detected frequency is minimal. -/
noncomputable def closest_by_cents (freq : ℝ) : List ℚ → Option ℚ
  | [] => none
  | nf :: rest =>
      match closest_by_cents freq rest with
      | none => some nf
      | some g => if |cents g freq| < |cents nf freq| then some g else some nf

/-- `find_closest_note`: reject an empty binding list and frequencies below
50 Hz or above 1000 Hz; otherwise return the first harmonic hit, and failing
that the nearest-cents binding provided its distance is below 50 cents. -/
noncomputable def find_closest_note (nm : List ℚ) (freq : ℝ) : Option ℚ :=
  if nm = [] ∨ freq < 50 ∨ freq > 1000 then none
  else
    match harmonic_scan freq nm with
    | some nf => some nf
    | none =>
        match closest_by_cents freq nm with
        | some g => if |cents g freq| < 50 then some g else none
        | none => none

/-! ## IEEE non-finite values and the frequency refinement (lines 89-95) -/

/-- A numpy double as far as this pipeline distinguishes: an ordinary real
value, `nan`, `inf` or `-inf`. -/
inductive FloatVal where
  | fin (x : ℝ)
  | nan
  | pinf
  | ninf

/-- The sub-bin offset `delta = (y0 - y2) / (2 * (y0 - 2*y1 + y2))` computed
from the log magnitudes around the peak.  When the denominator is zero the
float division yields `inf`, `-inf` or (for `0/0`) `nan` instead of raising;
the denominator, a sum of differences of equal magnitude, carries sign `+0.0`
in that case. -/
noncomputable def quad_interp (y0 y1 y2 : ℝ) : FloatVal :=
  if y0 - 2 * y1 + y2 = 0 then
    (if y0 - y2 = 0 then FloatVal.nan
     else if 0 < y0 - y2 then FloatVal.pinf else FloatVal.ninf)
  else FloatVal.fin ((y0 - y2) / (2 * (y0 - 2 * y1 + y2)))

/-- `refined_freq = (peak_bin + delta) * sample_rate / chunk_size`, lifted
over a possibly non-finite `delta`.  Adding the finite `peak_bin` and
scaling by the positive `sample_rate / chunk_size` of a running stream
preserves `nan` and the two infinities. -/
noncomputable def to_refined (pk : ℕ) (rate chunk : ℕ) : FloatVal → FloatVal
  | FloatVal.fin d => FloatVal.fin (((pk : ℝ) + d) * (rate : ℝ) / (chunk : ℝ))
  | FloatVal.nan => FloatVal.nan
  | FloatVal.pinf => FloatVal.pinf
  | FloatVal.ninf => FloatVal.ninf

/-- `find_closest_note` applied to a possibly non-finite detected frequency,
following IEEE comparison semantics: `inf > 1000` and `-inf < 50` are range
rejections; for `nan` every comparison in the function is false — the range
test passes, no harmonic window test succeeds, and the final
`abs(cents) < 50` test fails (the cents array is all-`nan` and `np.argmin`
returns index 0) — so the result is `None` through the ordinary returns. -/
noncomputable def find_closest_noteF (nm : List ℚ) : FloatVal → Option ℚ
  | FloatVal.fin x => find_closest_note nm x
  | FloatVal.nan => none
  | FloatVal.pinf => none
  | FloatVal.ninf => none

/-! ## The per-frame pipeline (`process_audio`, lines 74-105) -/

/-- Static configuration of the pipeline, from `config.json`. -/
structure Config where
  sample_rate : ℕ
  chunk_size : ℕ
  detection_thresh : ℝ
  note_map : List (ℚ × ActionDef)

/-- The binding frequencies `list(self.note_map.keys())`. -/
def note_freqs (cfg : Config) : List ℚ :=
  cfg.note_map.map (fun p => p.1)

/-- `min_bin = max(1, int(min_freq * chunk_size / sample_rate))` with
`min_freq = 50`. -/
def min_bin (cfg : Config) : ℕ :=
  max 1 (50 * cfg.chunk_size / cfg.sample_rate)

/-- Upper slice bound `int(len(magnitudes) * 0.8)`. -/
def hi_bin (mlen : ℕ) : ℕ :=
  4 * mlen / 5

/-- The in-band slice `magnitudes[min_bin : int(len(magnitudes)*0.8)]`. -/
def seg (cfg : Config) (mags : List ℝ) : List ℝ :=
  (mags.drop (min_bin cfg)).take (hi_bin mags.length - min_bin cfg)

/-- Maximum of a list of reals (`0` for the empty list, on which numpy would
raise instead; see `argmax_idx`). -/
noncomputable def list_max : List ℝ → ℝ
  | [] => 0
  | [x] => x
  | x :: y :: t => max x (list_max (y :: t))

/-- `np.argmax`: index of the first occurrence of the maximum. -/
noncomputable def argmax_idx : List ℝ → ℕ
  | [] => 0
  | [_] => 0
  | x :: y :: t => if list_max (y :: t) ≤ x then 0 else argmax_idx (y :: t) + 1

/-- `peak_bin = np.argmax(spectrum_segment) + min_bin`. -/
noncomputable def peak_bin (cfg : Config) (mags : List ℝ) : ℕ :=
  argmax_idx (seg cfg mags) + min_bin cfg

/-- `peak_power = magnitudes[peak_bin]`. -/
noncomputable def peak_power (cfg : Config) (mags : List ℝ) : ℝ :=
  (mags.getD (peak_bin cfg mags) 0)

/-- The interpolation denominator's kernel
`log(magnitudes[pk-1]) - 2*log(magnitudes[pk]) + log(magnitudes[pk+1])`;
the source divides by twice this quantity. -/
noncomputable def interp_den (mags : List ℝ) (pk : ℕ) : ℝ :=
  Real.log (mags.getD (pk - 1) 0) - 2 * Real.log (mags.getD pk 0) +
    Real.log (mags.getD (pk + 1) 0)

/-- The frequency handed to the resolver: the coarse bin frequency
`peak_bin * sample_rate / chunk_size`, replaced by the quadratically
interpolated refinement when `1 < peak_bin < len(magnitudes) - 1`. -/
noncomputable def refined (cfg : Config) (mags : List ℝ) : FloatVal :=
  if 1 < peak_bin cfg mags ∧ peak_bin cfg mags < mags.length - 1 then
    to_refined (peak_bin cfg mags) cfg.sample_rate cfg.chunk_size
      (quad_interp (Real.log (mags.getD (peak_bin cfg mags - 1) 0))
        (Real.log (mags.getD (peak_bin cfg mags) 0))
        (Real.log (mags.getD (peak_bin cfg mags + 1) 0)))
  else FloatVal.fin ((peak_bin cfg mags : ℝ) * (cfg.sample_rate : ℝ) / (cfg.chunk_size : ℝ))

/-- `detected_note = self.find_closest_note(freq)` for the frame. -/
noncomputable def detected_note (cfg : Config) (mags : List ℝ) : Option ℚ :=
  find_closest_noteF (note_freqs cfg) (refined cfg mags)

/-- One invocation of `process_audio` on a frame with power spectrum `mags`:
returns the new active set, the injector calls made, and the note the frame
resolved to (`none` in the third component = the frame was treated as
silence / no pitch).  The outer `none` models a raised exception: an empty
in-band slice (`np.argmax` raises) or a failed `note_map` lookup. -/
noncomputable def process_frame (cfg : Config) (active : List String) (mags : List ℝ) :
    Option (List String × List Event × Option ℚ) :=
  if seg cfg mags = [] then none
  else if peak_power cfg mags < cfg.detection_thresh then
    some ([], active.flatMap releaseEvents, none)
  else
    match detected_note cfg mags with
    | some f =>
        (trigger_action cfg.note_map active f).map (fun p => (p.1, p.2, some f))
    | none => some ([], active.flatMap releaseEvents, none)

/-! ## Basic lemmas about the embedded operations -/

theorem press_ne_match_release (a b : ActionDef) : press_event a ≠ match_release b := by
  obtain ⟨t, s⟩ := a
  obtain ⟨t', s'⟩ := b
  cases t <;> cases t' <;> simp [press_event, match_release]

theorem releaseEvents_isRelease (id : String) : ∀ e ∈ releaseEvents id, e.isRelease = true := by
  unfold releaseEvents
  rcases split_us id with _ | ⟨t, _ | ⟨r, rest⟩⟩
  · simp
  · simp
  · show ∀ e ∈ (if t = "key" then [Event.keyRelease r]
        else if t = "mouse" then
          [Event.mouseRelease (if r = "left" then MButton.left else MButton.right)]
        else []), e.isRelease = true
    split_ifs <;> intro e he <;> simp_all [Event.isRelease]

theorem flatMap_release_isRelease (active : List String) :
    ∀ e ∈ active.flatMap releaseEvents, e.isRelease = true := by
  intro e he
  obtain ⟨id, _, hmem⟩ := List.mem_flatMap.mp he
  exact releaseEvents_isRelease id e hmem

theorem lookup_mem_acts {nm : List (ℚ × ActionDef)} {f : ℚ} {a : ActionDef}
    (h : lookupNote nm f = some a) : a ∈ acts nm := by
  unfold lookupNote at h
  rcases hf : List.find? (fun p => decide (p.1 = f)) nm with _ | p
  · rw [hf] at h
    simp at h
  · rw [hf] at h
    simp at h
    subst h
    exact List.mem_map_of_mem _ (List.mem_of_find?_eq_some hf)

theorem harmonic_scan_eq_some {d : ℝ} {g : ℚ} {l : List ℚ}
    (h : harmonic_scan d l = some g) : g ∈ l ∧ harmonic_hit d g := by
  induction l with
  | nil => simp [harmonic_scan] at h
  | cons nf rest ih =>
    by_cases hh : harmonic_hit d nf
    · simp [harmonic_scan, hh] at h
      subst h
      exact ⟨List.mem_cons_self _ _, hh⟩
    · simp only [harmonic_scan, if_neg hh] at h
      obtain ⟨hm, hh'⟩ := ih h
      exact ⟨List.mem_cons_of_mem _ hm, hh'⟩

theorem harmonic_scan_isSome_of {d : ℝ} {f : ℚ} {l : List ℚ}
    (hf : f ∈ l) (hh : harmonic_hit d f) : ∃ g, harmonic_scan d l = some g := by
  induction l with
  | nil => simp at hf
  | cons nf rest ih =>
    by_cases hnf : harmonic_hit d nf
    · exact ⟨nf, by simp [harmonic_scan, hnf]⟩
    · rcases List.mem_cons.mp hf with rfl | hf'
      · exact absurd hh hnf
      · obtain ⟨g, hg⟩ := ih hf'
        exact ⟨g, by simp [harmonic_scan, hnf, hg]⟩

theorem harmonic_scan_eq_none {d : ℝ} {l : List ℚ}
    (h : harmonic_scan d l = none) : ∀ f ∈ l, ¬ harmonic_hit d f := by
  intro f hf hh
  obtain ⟨g, hg⟩ := harmonic_scan_isSome_of hf hh
  rw [h] at hg
  exact Option.noConfusion hg

theorem closest_by_cents_spec (d : ℝ) (l : List ℚ) (h : l ≠ []) :
    ∃ g, closest_by_cents d l = some g ∧ g ∈ l ∧ ∀ b ∈ l, |cents g d| ≤ |cents b d| := by
  induction l with
  | nil => exact absurd rfl h
  | cons nf rest ih =>
    rcases eq_or_ne rest [] with rfl | hne
    · exact ⟨nf, by simp [closest_by_cents], by simp, by simp⟩
    · obtain ⟨g, hg, hgmem, hgle⟩ := ih hne
      by_cases hlt : |cents g d| < |cents nf d|
      · refine ⟨g, ?_, List.mem_cons_of_mem _ hgmem, ?_⟩
        · simp only [closest_by_cents, hg]
          simp [hlt]
        · intro b hb
          rcases List.mem_cons.mp hb with rfl | hb
          · exact le_of_lt hlt
          · exact hgle b hb
      · refine ⟨nf, ?_, List.mem_cons_self _ _, ?_⟩
        · simp only [closest_by_cents, hg]
          simp [hlt]
        · intro b hb
          rcases List.mem_cons.mp hb with rfl | hb
          · exact le_refl _
          · exact le_trans (not_lt.mp hlt) (hgle b hb)

theorem abs_cents_lt_50_iff (a : ℚ) (d : ℝ) (ha : 0 < (a : ℝ)) (hd : 0 < d) :
    |cents a d| < 50 ↔ d ^ 24 < 2 * (a : ℝ) ^ 24 ∧ (a : ℝ) ^ 24 < 2 * d ^ 24 := by
  have hq : (0 : ℝ) < (a : ℝ) / d := div_pos ha hd
  have h2 : (1 : ℝ) < 2 := one_lt_two
  have e1 : ((2 : ℝ) ^ ((1 : ℝ) / 24)) ^ (24 : ℕ) = 2 := by
    rw [← Real.rpow_natCast ((2 : ℝ) ^ ((1 : ℝ) / 24)) 24,
      ← Real.rpow_mul (by norm_num : (0 : ℝ) ≤ 2)]
    norm_num
  have e2 : ((2 : ℝ) ^ (-((1 : ℝ) / 24))) ^ (24 : ℕ) = 1 / 2 := by
    rw [← Real.rpow_natCast ((2 : ℝ) ^ (-((1 : ℝ) / 24))) 24,
      ← Real.rpow_mul (by norm_num : (0 : ℝ) ≤ 2)]
    rw [show (-((1 : ℝ) / 24)) * ((24 : ℕ) : ℝ) = ((-1 : ℤ) : ℝ) by push_cast; ring,
      Real.rpow_intCast]
    norm_num
  have upper : Real.logb 2 ((a : ℝ) / d) < 1 / 24 ↔ (a : ℝ) ^ 24 < 2 * d ^ 24 := by
    rw [Real.logb_lt_iff_lt_rpow h2 hq,
      ← pow_lt_pow_iff_left₀ hq.le (Real.rpow_nonneg (by norm_num) _)
        (by norm_num : (24 : ℕ) ≠ 0),
      e1, div_pow, div_lt_iff₀ (pow_pos hd 24)]
  have lower : -(1 / 24) < Real.logb 2 ((a : ℝ) / d) ↔ d ^ 24 < 2 * (a : ℝ) ^ 24 := by
    rw [Real.lt_logb_iff_rpow_lt h2 hq,
      ← pow_lt_pow_iff_left₀ (Real.rpow_nonneg (by norm_num) _) hq.le
        (by norm_num : (24 : ℕ) ≠ 0),
      e2, div_pow, lt_div_iff₀ (pow_pos hd 24)]
    constructor <;> intro h <;> linarith
  unfold cents
  rw [abs_mul, abs_of_nonneg (by norm_num : (0 : ℝ) ≤ 1200),
    show (50 : ℝ) = 1200 * (1 / 24) by norm_num,
    mul_lt_mul_left (by norm_num : (0 : ℝ) < 1200), abs_lt]
  exact and_congr lower upper

/-! ## Claim C1: harmonic matching -/

/-- Claim C1, counterexample.  The claim asserts that a detected frequency
within 10 Hz of a binding's fundamental `f` itself is returned as a harmonic
match for `f`.  The code's harmonic loop tests only `2f`, `3f` and `f/2`:
a detected 105 Hz with a single binding at 100 Hz hits no harmonic window,
falls through to the cents stage, is ~84.6 cents away — beyond the 50-cent
gate — and resolves to nothing, whereas the claim requires `some 100`.
Likewise 1500 Hz against a binding at 750 Hz is within 0 Hz of `2f`, but the
resolver rejects it as out of range rather than returning the binding. -/
theorem c1_counterexample :
    find_closest_note [(100 : ℚ)] (105 : ℝ) = none ∧
    find_closest_note [(750 : ℚ)] (1500 : ℝ) = none := by
  constructor
  · have hn : ¬ harmonic_hit (105 : ℝ) (100 : ℚ) := by
      unfold harmonic_hit
      push_cast
      simp only [abs_lt]
      norm_num
    have hs : harmonic_scan (105 : ℝ) [(100 : ℚ)] = none := by
      simp only [harmonic_scan, if_neg hn]
    have hcb : closest_by_cents (105 : ℝ) [(100 : ℚ)] = some 100 := by
      simp [closest_by_cents]
    have hc : ¬ |cents (100 : ℚ) (105 : ℝ)| < 50 := by
      rw [abs_cents_lt_50_iff (100 : ℚ) (105 : ℝ) (by norm_num) (by norm_num)]
      rintro ⟨h1, -⟩
      push_cast at h1
      norm_num at h1
    unfold find_closest_note
    rw [if_neg (by push_neg; exact ⟨by simp, by norm_num, by norm_num⟩), hs, hcb]
    exact if_neg hc
  · unfold find_closest_note
    rw [if_pos (Or.inr (Or.inr (by norm_num)))]

/-- Claim C1 (amended): for an in-range detected frequency `d`, if some
binding `f` has `d` strictly within 10 Hz of `2f`, `3f` or `f/2` — the
fundamental itself is not tested — the resolver returns a binding with such
a harmonic relation (the first one in configuration order), in preference to
any nearest-cents match: the conclusion is independent of every cents
distance. -/
theorem c1_harmonic_priority (nm : List ℚ) (d : ℝ) (f : ℚ)
    (hf : f ∈ nm) (hh : harmonic_hit d f) (h50 : ¬ d < 50) (h1000 : ¬ d > 1000) :
    ∃ g ∈ nm, harmonic_hit d g ∧ find_closest_note nm d = some g := by
  obtain ⟨g, hg⟩ := harmonic_scan_isSome_of hf hh
  obtain ⟨hgm, hgh⟩ := harmonic_scan_eq_some hg
  refine ⟨g, hgm, hgh, ?_⟩
  unfold find_closest_note
  rw [if_neg (by push_neg; exact ⟨List.ne_nil_of_mem hf, not_lt.mp h50, not_lt.mp h1000⟩), hg]

/-- Witness for `c1_harmonic_priority`: a pure 164.82 Hz detection (the 2nd
harmonic of the low-E binding 82.41 Hz) resolves to the 82.41 Hz binding. -/
theorem c1_witness :
    harmonic_hit (16482 / 100 : ℝ) (8241 / 100 : ℚ) ∧
    ∃ g ∈ [(8241 / 100 : ℚ)], harmonic_hit (16482 / 100 : ℝ) g ∧
      find_closest_note [(8241 / 100 : ℚ)] (16482 / 100 : ℝ) = some g := by
  have hh : harmonic_hit (16482 / 100 : ℝ) (8241 / 100 : ℚ) := by
    unfold harmonic_hit
    push_cast
    left
    simp only [abs_lt]
    norm_num
  exact ⟨hh, c1_harmonic_priority [(8241 / 100 : ℚ)] (16482 / 100 : ℝ) (8241 / 100 : ℚ)
    (by simp) hh (by norm_num) (by norm_num)⟩

/-! ## Claim C8: cents-based nearest match -/

/-- Claim C8: when the harmonic loop finds nothing and the detected
frequency is in range, the resolver picks a binding of minimal absolute
cents distance (`cents = 1200 * log2(bindingFreq / detectedFreq)`), returns
it when that distance is strictly below 50 cents, and returns nothing
otherwise. -/
theorem c8_cents_selection (nm : List ℚ) (d : ℝ) (hne : nm ≠ [])
    (h50 : ¬ d < 50) (h1000 : ¬ d > 1000) (hharm : harmonic_scan d nm = none) :
    ∃ g ∈ nm, (∀ b ∈ nm, |cents g d| ≤ |cents b d|) ∧
      (|cents g d| < 50 → find_closest_note nm d = some g) ∧
      (¬ |cents g d| < 50 → find_closest_note nm d = none) := by
  obtain ⟨g, hg, hgm, hgle⟩ := closest_by_cents_spec d nm hne
  have hbase : find_closest_note nm d = (if |cents g d| < 50 then some g else none) := by
    unfold find_closest_note
    rw [if_neg (by push_neg; exact ⟨hne, not_lt.mp h50, not_lt.mp h1000⟩), hharm, hg]
  refine ⟨g, hgm, hgle, ?_, ?_⟩
  · intro h
    rw [hbase, if_pos h]
  · intro h
    rw [hbase, if_neg h]

/-- Witness for `c8_cents_selection`: 99 Hz against a single 100 Hz binding
has no harmonic hit (distances 101, 201 and 49 Hz from `2f`, `3f`, `f/2`)
and is ~17.4 cents away, so the cents stage decides. -/
theorem c8_witness :
    harmonic_scan (99 : ℝ) [(100 : ℚ)] = none ∧
    ∃ g ∈ [(100 : ℚ)], (∀ b ∈ [(100 : ℚ)], |cents g (99 : ℝ)| ≤ |cents b (99 : ℝ)|) ∧
      (|cents g (99 : ℝ)| < 50 → find_closest_note [(100 : ℚ)] (99 : ℝ) = some g) ∧
      (¬ |cents g (99 : ℝ)| < 50 → find_closest_note [(100 : ℚ)] (99 : ℝ) = none) := by
  have hs : harmonic_scan (99 : ℝ) [(100 : ℚ)] = none := by
    have hn : ¬ harmonic_hit (99 : ℝ) (100 : ℚ) := by
      unfold harmonic_hit
      push_cast
      simp only [abs_lt]
      norm_num
    simp only [harmonic_scan, if_neg hn]
  exact ⟨hs, c8_cents_selection [(100 : ℚ)] (99 : ℝ) (by simp) (by norm_num) (by norm_num) hs⟩

/-! ## Claim C9: frequency range gate -/

/-- Claim C9: the resolver rejects every detected frequency strictly below
50 Hz or strictly above 1000 Hz; 49 Hz yields nothing for any bindings,
while exactly 50 Hz passes the range gate and proceeds to matching (shown
resolving against a 50 Hz binding, at zero cents distance). -/
theorem c9_range_rejection :
    (∀ (nm : List ℚ) (f : ℝ), f < 50 → find_closest_note nm f = none) ∧
    (∀ (nm : List ℚ) (f : ℝ), f > 1000 → find_closest_note nm f = none) ∧
    (∀ nm : List ℚ, find_closest_note nm (49 : ℝ) = none) ∧
    find_closest_note [(50 : ℚ)] (50 : ℝ) = some 50 := by
  have hlow : ∀ (nm : List ℚ) (f : ℝ), f < 50 → find_closest_note nm f = none := by
    intro nm f h
    unfold find_closest_note
    rw [if_pos (Or.inr (Or.inl h))]
  refine ⟨hlow, ?_, fun nm => hlow nm 49 (by norm_num), ?_⟩
  · intro nm f h
    unfold find_closest_note
    rw [if_pos (Or.inr (Or.inr h))]
  · have hn : ¬ harmonic_hit (50 : ℝ) (50 : ℚ) := by
      unfold harmonic_hit
      push_cast
      simp only [abs_lt]
      norm_num
    have hs : harmonic_scan (50 : ℝ) [(50 : ℚ)] = none := by
      simp only [harmonic_scan, if_neg hn]
    have hcb : closest_by_cents (50 : ℝ) [(50 : ℚ)] = some 50 := by
      simp [closest_by_cents]
    have hc : |cents (50 : ℚ) (50 : ℝ)| < 50 := by
      unfold cents
      rw [show ((50 : ℚ) : ℝ) / (50 : ℝ) = 1 by push_cast; norm_num, Real.logb_one]
      norm_num
    unfold find_closest_note
    rw [if_neg (by push_neg; exact ⟨by simp, by norm_num, by norm_num⟩), hs, hcb]
    exact if_pos hc

/-- Witness for `c9_range_rejection`: instantiating the below-range clause
at 49 Hz with one binding. -/
theorem c9_witness :
    (49 : ℝ) < 50 ∧ find_closest_note [(100 : ℚ)] (49 : ℝ) = none :=
  ⟨by norm_num, c9_range_rejection.1 [(100 : ℚ)] 49 (by norm_num)⟩

/-! ## Claim C10: empty binding configuration -/

/-- Claim C10: with no configured bindings the resolver returns nothing for
every frequency (the emptiness test precedes all matching), so every frame
either ends in the below-threshold release branch or resolves no note and
releases: the controller only ever emits release events. -/
theorem c10_empty_bindings :
    (∀ d : ℝ, find_closest_note [] d = none) ∧
    (∀ (cfg : Config) (active : List String) (mags : List ℝ),
      cfg.note_map = [] → seg cfg mags ≠ [] →
      process_frame cfg active mags = some ([], active.flatMap releaseEvents, none) ∧
      ∀ e ∈ active.flatMap releaseEvents, e.isRelease = true) := by
  have hres : ∀ d : ℝ, find_closest_note [] d = none := by
    intro d
    unfold find_closest_note
    rw [if_pos (Or.inl rfl)]
  refine ⟨hres, ?_⟩
  intro cfg active mags hnm hseg
  refine ⟨?_, flatMap_release_isRelease active⟩
  have hdet : detected_note cfg mags = none := by
    unfold detected_note
    have hnf : note_freqs cfg = [] := by simp [note_freqs, hnm]
    rw [hnf]
    cases refined cfg mags with
    | fin x => exact hres x
    | nan => rfl
    | pinf => rfl
    | ninf => rfl
  unfold process_frame
  rw [if_neg hseg]
  by_cases hp : peak_power cfg mags < cfg.detection_thresh
  · rw [if_pos hp]
  · rw [if_neg hp, hdet]

/-! ## Claim C2: monophony of the active set -/

/-- Claim C2, counterexample.  A frame resolving to a second binding while a
first action is pressed does NOT release the first: `process_audio` only
calls `release_actions` on no-match frames, and `trigger_action` never
removes.  Two frames resolving 100 Hz then 200 Hz leave BOTH `key_w` and
`key_s` asserted, against the claim that at most one action is ever
asserted. -/
theorem c2_counterexample :
    run_frames [((100 : ℚ), ⟨ActType.key, "w"⟩), ((200 : ℚ), ⟨ActType.key, "s"⟩)]
      [some 100, some 200] [] =
      some (["key_w", "key_s"], [Event.keyPress "w", Event.keyPress "s"]) := by
  decide

/-- Claim C2 (amended): a match frame never removes from the active set
(the prior action stays asserted) and grows it by at most one entry, while a
no-match frame empties it; the active set is therefore not bounded by one
element, only its per-frame growth is. -/
theorem c2_step_effects (nm : List (ℚ × ActionDef)) (active st : List String)
    (r : Option ℚ) (evs : List Event)
    (h : handle_detected nm active r = some (st, evs)) :
    (r = none → st = []) ∧
    (∀ b, r = some b → active ⊆ st ∧ st.length ≤ active.length + 1) := by
  constructor
  · rintro rfl
    simp [handle_detected, release_actions] at h
    exact h.1
  · rintro b rfl
    rcases hl : lookupNote nm b with _ | a
    · simp only [handle_detected, trigger_action, hl] at h
      exact absurd h (by simp)
    · simp only [handle_detected, trigger_action, hl] at h
      by_cases hm : actionId a ∈ active
      · rw [if_pos hm] at h
        simp at h
        obtain ⟨rfl, -⟩ := h
        exact ⟨List.Subset.refl _, by simp⟩
      · rw [if_neg hm] at h
        simp at h
        obtain ⟨rfl, -⟩ := h
        exact ⟨List.subset_append_left _ _, by simp⟩

/-- Witness for `c2_step_effects`: resolving 200 Hz while `key_w` is held
keeps `key_w` asserted and adds `key_s`. -/
theorem c2_witness :
    handle_detected [((100 : ℚ), ⟨ActType.key, "w"⟩), ((200 : ℚ), ⟨ActType.key, "s"⟩)]
      ["key_w"] (some 200) = some (["key_w", "key_s"], [Event.keyPress "s"]) ∧
    (["key_w"] : List String) ⊆ ["key_w", "key_s"] ∧
    (["key_w", "key_s"] : List String).length ≤ (["key_w"] : List String).length + 1 :=
  ⟨by decide,
    (c2_step_effects [((100 : ℚ), ⟨ActType.key, "w"⟩), ((200 : ℚ), ⟨ActType.key, "s"⟩)]
      ["key_w"] ["key_w", "key_s"] (some 200) [Event.keyPress "s"] (by decide)).2 200 rfl⟩

/-! ## Claim C3: debounce / rate limiting -/

/-- Claim C3, counterexample.  The claim asserts a configurable minimum
inter-trigger interval backed by a last-trigger timestamp per action.  The
code keeps no timestamp and reads no clock in the trigger path: the emitted
events are a function of the frame sequence alone.  Three consecutive frames
(match, silence, match) — which the audio callback can deliver within
milliseconds, i.e. faster than any positive interval — emit two presses of
the same action; nothing rate-limits the event stream beyond one press per
frame. -/
theorem c3_counterexample :
    run_frames [((100 : ℚ), ⟨ActType.key, "w"⟩)] [some 100, none, some 100] [] =
      some (["key_w"], [Event.keyPress "w", Event.keyRelease "w", Event.keyPress "w"]) ∧
    press_count ⟨ActType.key, "w"⟩
      [Event.keyPress "w", Event.keyRelease "w", Event.keyPress "w"] = 2 := by
  decide

/-- Claim C3 (amended): there is no timestamp-based debounce; the only
suppression is the active-set idempotence check.  Per frame at most one
press event is emitted, and a frame resolving to an action that is already
asserted emits nothing at all — so the event rate is bounded by one press
per frame, not by a wall-clock interval. -/
theorem c3_press_bound (nm : List (ℚ × ActionDef)) (active st : List String)
    (r : Option ℚ) (evs : List Event)
    (h : handle_detected nm active r = some (st, evs)) :
    evs.countP (fun e => e.isPress) ≤ 1 ∧
    (∀ b a, r = some b → lookupNote nm b = some a → actionId a ∈ active → evs = []) := by
  constructor
  · cases r with
    | none =>
      simp [handle_detected, release_actions] at h
      obtain ⟨-, hevs⟩ := h
      have hz : evs.countP (fun e => e.isPress) = 0 := by
        rw [List.countP_eq_zero]
        intro e he
        have hr := flatMap_release_isRelease active e (hevs ▸ he)
        cases e <;> simp_all [Event.isPress, Event.isRelease]
      omega
    | some b =>
      rcases hl : lookupNote nm b with _ | a
      · simp only [handle_detected, trigger_action, hl] at h
        exact absurd h (by simp)
      · simp only [handle_detected, trigger_action, hl] at h
        by_cases hm : actionId a ∈ active
        · rw [if_pos hm] at h
          simp at h
          obtain ⟨-, rfl⟩ := h
          exact le_trans (List.countP_le_length _) (by simp)
        · rw [if_neg hm] at h
          simp at h
          obtain ⟨-, rfl⟩ := h
          exact le_trans (List.countP_le_length _) (by simp)
  · rintro b a rfl hl hm
    simp only [handle_detected, trigger_action, hl, if_pos hm] at h
    simp at h
    exact h.2

/-- Witness for `c3_press_bound`: a frame resolving 100 Hz while its action
is already asserted emits no events. -/
theorem c3_witness :
    handle_detected [((100 : ℚ), ⟨ActType.key, "w"⟩)] ["key_w"] (some 100) =
      some (["key_w"], []) ∧
    ([] : List Event).countP (fun e => e.isPress) ≤ 1 ∧ ([] : List Event) = [] :=
  ⟨by decide,
    (c3_press_bound [((100 : ℚ), ⟨ActType.key, "w"⟩)] ["key_w"] ["key_w"] (some 100) []
      (by decide)).1,
    (c3_press_bound [((100 : ℚ), ⟨ActType.key, "w"⟩)] ["key_w"] ["key_w"] (some 100) []
      (by decide)).2 100 ⟨ActType.key, "w"⟩ rfl (by decide) (by decide)⟩

/-! ## Claim C6: press idempotence -/

/-- Claim C6: press emission is idempotent.  Two consecutive frames
resolving to the same binding emit exactly one press event, at the
released-to-pressed transition; while the action stays pressed, any number
of further frames resolving to it emit nothing. -/
theorem c6_idempotent_press (nm : List (ℚ × ActionDef)) (active : List String) (b : ℚ)
    (a : ActionDef) (hl : lookupNote nm b = some a) :
    (actionId a ∉ active →
      run_frames nm [some b, some b] active =
        some (active ++ [actionId a], [press_event a])) ∧
    (actionId a ∈ active →
      ∀ n, run_frames nm (List.replicate n (some b)) active = some (active, [])) := by
  constructor
  · intro h
    have h1 : trigger_action nm active b = some (active ++ [actionId a], [press_event a]) := by
      simp only [trigger_action, hl]
      rw [if_neg h]
    have h2 : trigger_action nm (active ++ [actionId a]) b =
        some (active ++ [actionId a], []) := by
      simp only [trigger_action, hl]
      rw [if_pos (by simp)]
    simp [run_frames, handle_detected, h1, h2]
  · intro h n
    induction n with
    | zero => simp [run_frames]
    | succ k ih =>
      have h1 : trigger_action nm active b = some (active, []) := by
        simp only [trigger_action, hl]
        rw [if_pos h]
      simp [List.replicate_succ, run_frames, handle_detected, h1, ih]

/-- Witness for `c6_idempotent_press`: from an empty state, two frames
resolving 100 Hz emit exactly one `keyboard.press("w")`. -/
theorem c6_witness :
    run_frames [((100 : ℚ), ⟨ActType.key, "w"⟩)] [some 100, some 100] [] =
      some ([] ++ [actionId ⟨ActType.key, "w"⟩], [press_event ⟨ActType.key, "w"⟩]) :=
  (c6_idempotent_press [((100 : ℚ), ⟨ActType.key, "w"⟩)] [] 100 ⟨ActType.key, "w"⟩
    (by decide)).1 (by decide)

/-! ## Claim C5: below-threshold frames release everything -/

/-- Claim C5: on a frame whose dominant in-band bin has power below the
detection threshold, `process_audio` returns before any resolution — no
note is resolved (third component `none`) — after releasing every currently
pressed action within that same invocation; every emitted event is a
release. -/
theorem c5_below_threshold (cfg : Config) (active : List String) (mags : List ℝ)
    (hseg : seg cfg mags ≠ []) (hlow : peak_power cfg mags < cfg.detection_thresh) :
    process_frame cfg active mags = some ([], active.flatMap releaseEvents, none) ∧
    ∀ e ∈ active.flatMap releaseEvents, e.isRelease = true := by
  refine ⟨?_, flatMap_release_isRelease active⟩
  unfold process_frame
  rw [if_neg hseg, if_pos hlow]

/-- Witness for `c5_below_threshold`: a flat unit spectrum against threshold
2 releases the held `key_w` and resolves nothing. -/
theorem c5_witness :
    peak_power ⟨400, 16, 2, [((100 : ℚ), ⟨ActType.key, "w"⟩)]⟩
        [1, 1, 1, 1, 1, 1, 1, 1, 1] < (2 : ℝ) ∧
    process_frame ⟨400, 16, 2, [((100 : ℚ), ⟨ActType.key, "w"⟩)]⟩ ["key_w"]
        [1, 1, 1, 1, 1, 1, 1, 1, 1] =
      some ([], (["key_w"] : List String).flatMap releaseEvents, none) := by
  have h1 : seg (⟨400, 16, 2, [((100 : ℚ), ⟨ActType.key, "w"⟩)]⟩ : Config)
      ([1, 1, 1, 1, 1, 1, 1, 1, 1] : List ℝ) ≠ [] := by
    simp [seg, min_bin, hi_bin]
  have h2 : peak_power (⟨400, 16, 2, [((100 : ℚ), ⟨ActType.key, "w"⟩)]⟩ : Config)
      ([1, 1, 1, 1, 1, 1, 1, 1, 1] : List ℝ) < (2 : ℝ) := by
    norm_num [peak_power, peak_bin, seg, min_bin, hi_bin, argmax_idx, list_max]
  exact ⟨h2, (c5_below_threshold _ _ _ h1 h2).1⟩

/-! ## Claim C4: degenerate quadratic interpolation -/

/-- Claim C4: when the quadratic interpolation is degenerate — the log
denominator `logMag[peak-1] - 2*logMag[peak] + logMag[peak+1]` is zero, so
the refined frequency is `inf`, `-inf` or `nan` — the frame is treated as
"no pitch detected": no binding becomes a candidate (the non-finite value is
rejected by the resolver's comparisons), every pressed action is released
within the frame, and no error is raised (the frame still returns a state,
not an exception). -/
theorem c4_degenerate_interp (cfg : Config) (active : List String) (mags : List ℝ)
    (hpos : ∀ x ∈ mags, (0 : ℝ) < x)
    (hseg : seg cfg mags ≠ [])
    (hth : ¬ peak_power cfg mags < cfg.detection_thresh)
    (hmid : 1 < peak_bin cfg mags ∧ peak_bin cfg mags < mags.length - 1)
    (hden : interp_den mags (peak_bin cfg mags) = 0) :
    detected_note cfg mags = none ∧
    process_frame cfg active mags = some ([], active.flatMap releaseEvents, none) := by
  have hq : refined cfg mags = FloatVal.nan ∨ refined cfg mags = FloatVal.pinf ∨
      refined cfg mags = FloatVal.ninf := by
    unfold refined
    rw [if_pos hmid]
    unfold quad_interp
    have hz : Real.log (mags.getD (peak_bin cfg mags - 1) 0) -
        2 * Real.log (mags.getD (peak_bin cfg mags) 0) +
        Real.log (mags.getD (peak_bin cfg mags + 1) 0) = 0 := hden
    rw [if_pos hz]
    by_cases h0 : Real.log (mags.getD (peak_bin cfg mags - 1) 0) -
        Real.log (mags.getD (peak_bin cfg mags + 1) 0) = 0
    · rw [if_pos h0]
      left
      rfl
    · rw [if_neg h0]
      by_cases h1 : 0 < Real.log (mags.getD (peak_bin cfg mags - 1) 0) -
          Real.log (mags.getD (peak_bin cfg mags + 1) 0)
      · rw [if_pos h1]
        right
        left
        rfl
      · rw [if_neg h1]
        right
        right
        rfl
  have hdet : detected_note cfg mags = none := by
    unfold detected_note
    rcases hq with h | h | h <;> rw [h] <;> rfl
  refine ⟨hdet, ?_⟩
  unfold process_frame
  rw [if_neg hseg, if_neg hth, hdet]

/-- Witness for `c4_degenerate_interp`: spectrum `[1, 16, 4, 1, ...]` with
`min_bin = 2` puts the peak (power 4, above threshold 1) at bin 2 with
out-of-band left neighbour 16, giving `log 16 - 2*log 4 + log 1 = 0`; the
frame resolves nothing and releases the held action. -/
theorem c4_witness :
    interp_den ([1, 16, 4, 1, 1, 1, 1, 1, 1] : List ℝ)
      (peak_bin ⟨400, 16, 1, [((100 : ℚ), ⟨ActType.key, "w"⟩)]⟩
        [1, 16, 4, 1, 1, 1, 1, 1, 1]) = 0 ∧
    detected_note ⟨400, 16, 1, [((100 : ℚ), ⟨ActType.key, "w"⟩)]⟩
      [1, 16, 4, 1, 1, 1, 1, 1, 1] = none ∧
    process_frame ⟨400, 16, 1, [((100 : ℚ), ⟨ActType.key, "w"⟩)]⟩ ["key_w"]
        [1, 16, 4, 1, 1, 1, 1, 1, 1] =
      some ([], (["key_w"] : List String).flatMap releaseEvents, none) := by
  have hpk : peak_bin (⟨400, 16, 1, [((100 : ℚ), ⟨ActType.key, "w"⟩)]⟩ : Config)
      ([1, 16, 4, 1, 1, 1, 1, 1, 1] : List ℝ) = 2 := by
    norm_num [peak_bin, seg, min_bin, hi_bin, argmax_idx, list_max]
  have hden2 : interp_den ([1, 16, 4, 1, 1, 1, 1, 1, 1] : List ℝ) 2 = 0 := by
    show Real.log 16 - 2 * Real.log 4 + Real.log 1 = 0
    rw [show (16 : ℝ) = 4 ^ 2 by norm_num, Real.log_pow, Real.log_one]
    push_cast
    ring
  have hden : interp_den ([1, 16, 4, 1, 1, 1, 1, 1, 1] : List ℝ)
      (peak_bin (⟨400, 16, 1, [((100 : ℚ), ⟨ActType.key, "w"⟩)]⟩ : Config)
        ([1, 16, 4, 1, 1, 1, 1, 1, 1] : List ℝ)) = 0 := by
    rw [hpk]
    exact hden2
  have h := c4_degenerate_interp ⟨400, 16, 1, [((100 : ℚ), ⟨ActType.key, "w"⟩)]⟩
    ["key_w"] [1, 16, 4, 1, 1, 1, 1, 1, 1]
    (by intro x hx; simp at hx; rcases hx with rfl | rfl | rfl | rfl <;> norm_num)
    (by simp [seg, min_bin, hi_bin])
    (by norm_num [peak_power, peak_bin, seg, min_bin, hi_bin, argmax_idx, list_max])
    (by rw [hpk]; constructor <;> norm_num)
    hden
  exact ⟨hden, h.1, h.2⟩

/-! ## Claim C7: the press/release bookkeeping invariant -/

theorem scan_pressed_append (a : ActionDef) (l1 l2 : List Event) (p : Bool) :
    scan_pressed a (l1 ++ l2) p =
      (scan_pressed a l1 p).bind (fun q => scan_pressed a l2 q) := by
  induction l1 generalizing p with
  | nil => simp [scan_pressed]
  | cons e rest ih =>
    simp only [List.cons_append, scan_pressed]
    by_cases h1 : e = press_event a
    · simp only [if_pos h1]
      cases p
      · simpa using ih true
      · simp
    · by_cases h2 : e = match_release a
      · simp only [if_neg h1, if_pos h2]
        cases p
        · simp
        · simpa using ih false
      · simp only [if_neg h1, if_neg h2]
        exact ih p

theorem scan_pressed_skip (a : ActionDef) (l : List Event) (p : Bool)
    (h : ∀ e ∈ l, e ≠ press_event a ∧ e ≠ match_release a) :
    scan_pressed a l p = some p := by
  induction l with
  | nil => rfl
  | cons e rest ih =>
    obtain ⟨h1, h2⟩ := h e (List.mem_cons_self _ _)
    simp only [scan_pressed, if_neg h1, if_neg h2]
    exact ih (fun e' he' => h e' (List.mem_cons_of_mem _ he'))

theorem scan_pressed_count (a : ActionDef) (l : List Event) :
    ∀ p q : Bool, scan_pressed a l p = some q →
      press_count a l + p.toNat = release_count a l + q.toNat := by
  induction l with
  | nil =>
    intro p q h
    simp [scan_pressed] at h
    subst h
    rfl
  | cons e rest ih =>
    intro p q h
    by_cases h1 : e = press_event a
    · have hcp : press_count a (e :: rest) = press_count a rest + 1 := by
        simp [press_count, List.countP_cons, h1]
      have hcr : release_count a (e :: rest) = release_count a rest := by
        simp [release_count, List.countP_cons, h1, press_ne_match_release a a]
      simp only [scan_pressed, if_pos h1] at h
      cases p with
      | false =>
        simp only [Bool.false_eq_true, if_false] at h
        have hrec := ih true q h
        rw [hcp, hcr]
        simp only [Bool.toNat_false, Bool.toNat_true] at hrec ⊢
        omega
      | true => simp at h
    · by_cases h2 : e = match_release a
      · have hcp : press_count a (e :: rest) = press_count a rest := by
          simp [press_count, List.countP_cons, h2, (press_ne_match_release a a).symm]
        have hcr : release_count a (e :: rest) = release_count a rest + 1 := by
          simp [release_count, List.countP_cons, h2]
        simp only [scan_pressed, if_neg h1, if_pos h2] at h
        cases p with
        | true =>
          simp only [if_true] at h
          have hrec := ih false q h
          rw [hcp, hcr]
          simp only [Bool.toNat_false, Bool.toNat_true] at hrec ⊢
          omega
        | false => simp at h
      · have hcp : press_count a (e :: rest) = press_count a rest := by
          simp [press_count, List.countP_cons, h1]
        have hcr : release_count a (e :: rest) = release_count a rest := by
          simp [release_count, List.countP_cons, h2]
        simp only [scan_pressed, if_neg h1, if_neg h2] at h
        rw [hcp, hcr]
        exact ih p q h

theorem scan_release_ids (nm : List (ℚ × ActionDef)) (a : ActionDef) (ha : a ∈ acts nm)
    (Hinj : ∀ a₁ ∈ acts nm, ∀ a₂ ∈ acts nm,
      (actionId a₁ = actionId a₂ → a₁ = a₂) ∧ (press_event a₁ = press_event a₂ → a₁ = a₂) ∧
      (match_release a₁ = match_release a₂ → a₁ = a₂))
    (Hround : ∀ a₁ ∈ acts nm, releaseEvents (actionId a₁) = [match_release a₁]) :
    ∀ ids : List String, ids.Nodup → (∀ id ∈ ids, ∃ b ∈ acts nm, id = actionId b) →
      scan_pressed a (ids.flatMap releaseEvents) (decide (actionId a ∈ ids)) = some false := by
  intro ids
  induction ids with
  | nil =>
    intro _ _
    simp [scan_pressed]
  | cons id rest ih =>
    intro hnd hids
    obtain ⟨b, hb, rfl⟩ := hids id (List.mem_cons_self _ _)
    have hrel : releaseEvents (actionId b) = [match_release b] := Hround b hb
    obtain ⟨hhead, hnd'⟩ := List.nodup_cons.mp hnd
    have hrest : ∀ e ∈ rest.flatMap releaseEvents,
        e ≠ press_event a ∧ e ≠ match_release a → True := fun _ _ _ => trivial
    have hrest_shape : ∀ e ∈ rest.flatMap releaseEvents,
        ∃ b' ∈ acts nm, actionId b' ∈ rest ∧ e = match_release b' := by
      intro e he
      obtain ⟨id', hid', hmem⟩ := List.mem_flatMap.mp he
      obtain ⟨b', hb', rfl⟩ := hids id' (List.mem_cons_of_mem _ hid')
      rw [Hround b' hb'] at hmem
      simp at hmem
      exact ⟨b', hb', hid', hmem⟩
    rw [List.flatMap_cons, hrel]
    by_cases hab : a = b
    · subst hab
      rw [show (decide (actionId a ∈ actionId a :: rest)) = true by simp]
      show scan_pressed a (match_release a :: rest.flatMap releaseEvents) true = some false
      have hstep : scan_pressed a (match_release a :: rest.flatMap releaseEvents) true =
          scan_pressed a (rest.flatMap releaseEvents) false := by
        simp [scan_pressed, (press_ne_match_release a a).symm]
      rw [hstep]
      apply scan_pressed_skip
      intro e he
      obtain ⟨b', hb', hid', rfl⟩ := hrest_shape e he
      have hb'a : b' ≠ a := by
        intro heq
        subst heq
        exact hhead hid'
      exact ⟨(press_ne_match_release a b').symm,
        fun he' => hb'a ((Hinj b' hb' a ha).2.2 he')⟩
    · have hne_id : actionId a ≠ actionId b := fun he => hab ((Hinj a ha b hb).1 he)
      rw [show (decide (actionId a ∈ actionId b :: rest)) = decide (actionId a ∈ rest) by
        simp [hne_id]]
      show scan_pressed a (match_release b :: rest.flatMap releaseEvents)
        (decide (actionId a ∈ rest)) = some false
      have hne_mr : match_release b ≠ match_release a :=
        fun he => hab (((Hinj b hb a ha).2.2 he)).symm
      have hne_pe : match_release b ≠ press_event a := (press_ne_match_release a b).symm
      simp only [scan_pressed, if_neg hne_pe, if_neg hne_mr]
      exact ih hnd' (fun id' hid' => hids id' (List.mem_cons_of_mem _ hid'))

theorem handle_scan (nm : List (ℚ × ActionDef))
    (Hinj : ∀ a₁ ∈ acts nm, ∀ a₂ ∈ acts nm,
      (actionId a₁ = actionId a₂ → a₁ = a₂) ∧ (press_event a₁ = press_event a₂ → a₁ = a₂) ∧
      (match_release a₁ = match_release a₂ → a₁ = a₂))
    (Hround : ∀ a₁ ∈ acts nm, releaseEvents (actionId a₁) = [match_release a₁])
    (st0 : List String) (r : Option ℚ) (st1 : List String) (evs1 : List Event)
    (hwf : wf nm st0) (h : handle_detected nm st0 r = some (st1, evs1)) :
    wf nm st1 ∧ ∀ a ∈ acts nm,
      scan_pressed a evs1 (decide (actionId a ∈ st0)) = some (decide (actionId a ∈ st1)) := by
  cases r with
  | none =>
    simp [handle_detected, release_actions] at h
    obtain ⟨h1, h2⟩ := h
    subst h1
    subst h2
    refine ⟨⟨List.nodup_nil, by simp⟩, ?_⟩
    intro a ha
    rw [show (decide (actionId a ∈ ([] : List String))) = false by simp]
    exact scan_release_ids nm a ha Hinj Hround st0 hwf.1 hwf.2
  | some b =>
    rcases hl : lookupNote nm b with _ | c
    · simp only [handle_detected, trigger_action, hl] at h
      exact absurd h (by simp)
    · have hc : c ∈ acts nm := lookup_mem_acts hl
      simp only [handle_detected, trigger_action, hl] at h
      by_cases hm : actionId c ∈ st0
      · rw [if_pos hm] at h
        simp at h
        obtain ⟨h1, h2⟩ := h
        subst h1
        subst h2
        exact ⟨hwf, fun a ha => rfl⟩
      · rw [if_neg hm] at h
        simp at h
        obtain ⟨h1, h2⟩ := h
        subst h1
        subst h2
        refine ⟨⟨?_, ?_⟩, ?_⟩
        · refine hwf.1.append (List.nodup_singleton _) ?_
          intro x hx hx'
          simp at hx'
          subst hx'
          exact hm hx
        · intro id hid
          rcases List.mem_append.mp hid with hid | hid
          · exact hwf.2 id hid
          · simp at hid
            subst hid
            exact ⟨c, hc, rfl⟩
        · intro a ha
          by_cases hac : a = c
          · subst hac
            rw [show (decide (actionId a ∈ st0)) = false by simp [hm],
              show (decide (actionId a ∈ st0 ++ [actionId a])) = true by simp]
            simp [scan_pressed]
          · have hne_id : actionId a ≠ actionId c := fun he => hac ((Hinj a ha c hc).1 he)
            have hne_pe : press_event c ≠ press_event a :=
              fun he => hac (((Hinj c hc a ha).2.1 he)).symm
            rw [show (decide (actionId a ∈ st0 ++ [actionId c])) =
                decide (actionId a ∈ st0) by simp [hne_id]]
            apply scan_pressed_skip
            intro e he
            simp at he
            subst he
            exact ⟨hne_pe, press_ne_match_release c a⟩

theorem run_frames_scan (nm : List (ℚ × ActionDef))
    (Hinj : ∀ a₁ ∈ acts nm, ∀ a₂ ∈ acts nm,
      (actionId a₁ = actionId a₂ → a₁ = a₂) ∧ (press_event a₁ = press_event a₂ → a₁ = a₂) ∧
      (match_release a₁ = match_release a₂ → a₁ = a₂))
    (Hround : ∀ a₁ ∈ acts nm, releaseEvents (actionId a₁) = [match_release a₁]) :
    ∀ (trace : List (Option ℚ)) (st0 : List String), wf nm st0 →
      ∀ st evs, run_frames nm trace st0 = some (st, evs) →
        wf nm st ∧ ∀ a ∈ acts nm,
          scan_pressed a evs (decide (actionId a ∈ st0)) =
            some (decide (actionId a ∈ st)) := by
  intro trace
  induction trace with
  | nil =>
    intro st0 hwf st evs h
    simp [run_frames] at h
    obtain ⟨h1, h2⟩ := h
    subst h1
    subst h2
    exact ⟨hwf, fun a ha => rfl⟩
  | cons r rs ih =>
    intro st0 hwf st evs h
    rcases h1 : handle_detected nm st0 r with _ | ⟨st1, evs1⟩
    · simp only [run_frames, h1] at h
      exact absurd h (by simp)
    · simp only [run_frames, h1] at h
      rcases h2 : run_frames nm rs st1 with _ | ⟨st2, evs2⟩
      · simp only [h2] at h
        exact absurd h (by simp)
      · simp only [h2] at h
        simp at h
        obtain ⟨h3, h4⟩ := h
        subst h3
        subst h4
        obtain ⟨hwf1, hscan1⟩ := handle_scan nm Hinj Hround st0 r st1 evs1 hwf h1
        obtain ⟨hwf2, hscan2⟩ := ih st1 hwf1 st2 evs2 h2
        refine ⟨hwf2, fun a ha => ?_⟩
        rw [scan_pressed_append, hscan1 a ha, Option.some_bind]
        exact hscan2 a ha

/-- Claim C7, counterexample.  `release_actions` reconstructs the release
from the stored id with `split('_')` and uses `parts[1]`, so an action
identifier containing an underscore is mis-decoded: with the binding
`100 Hz -> key "ctrl_l"` the trace (match, silence, match) presses
`"ctrl_l"` twice but releases only `"ctrl"` — a double press with no
matching release, violating the invariant.  Similarly, two distinct mouse
bindings `"middle"` and `"right"` both inject `Button.right`, so resolving
one then the other double-presses the right mouse button. -/
theorem c7_counterexample :
    run_frames [((100 : ℚ), ⟨ActType.key, "ctrl_l"⟩)] [some 100, none, some 100] [] =
      some (["key_ctrl_l"],
        [Event.keyPress "ctrl_l", Event.keyRelease "ctrl", Event.keyPress "ctrl_l"]) ∧
    press_count ⟨ActType.key, "ctrl_l"⟩
      [Event.keyPress "ctrl_l", Event.keyRelease "ctrl", Event.keyPress "ctrl_l"] = 2 ∧
    release_count ⟨ActType.key, "ctrl_l"⟩
      [Event.keyPress "ctrl_l", Event.keyRelease "ctrl", Event.keyPress "ctrl_l"] = 0 ∧
    run_frames [((100 : ℚ), ⟨ActType.mouse, "middle"⟩), ((200 : ℚ), ⟨ActType.mouse, "right"⟩)]
      [some 100, some 200] [] =
      some (["mouse_middle", "mouse_right"],
        [Event.mousePress MButton.right, Event.mousePress MButton.right]) := by
  decide

/-- Claim C7 (amended): provided distinct bound actions have distinct ids,
distinct press events and distinct matching release events, and every bound
id decodes back to its action's matching release (true exactly when no
action identifier contains an underscore), then after any frame sequence
from the startup state: the scan of the emitted trace never sees a double
press or double release and ends in the held-state recorded by
`active_actions`, and the press count of every action exceeds its matching
release count by exactly one when (and only when) its id is in
`active_actions`. -/
theorem c7_invariant (nm : List (ℚ × ActionDef)) (trace : List (Option ℚ))
    (st : List String) (evs : List Event) (a : ActionDef)
    (Hinj : ∀ a₁ ∈ acts nm, ∀ a₂ ∈ acts nm,
      (actionId a₁ = actionId a₂ → a₁ = a₂) ∧ (press_event a₁ = press_event a₂ → a₁ = a₂) ∧
      (match_release a₁ = match_release a₂ → a₁ = a₂))
    (Hround : ∀ a₁ ∈ acts nm, releaseEvents (actionId a₁) = [match_release a₁])
    (hrun : run_frames nm trace [] = some (st, evs)) (ha : a ∈ acts nm) :
    scan_pressed a evs false = some (decide (actionId a ∈ st)) ∧
    press_count a evs = release_count a evs + (decide (actionId a ∈ st)).toNat := by
  obtain ⟨-, hscan⟩ := run_frames_scan nm Hinj Hround trace []
    ⟨List.nodup_nil, by simp⟩ st evs hrun
  have h := hscan a ha
  rw [show (decide (actionId a ∈ ([] : List String))) = false by simp] at h
  refine ⟨h, ?_⟩
  have hc := scan_pressed_count a evs false _ h
  simpa using hc

/-- Witness for `c7_invariant`: one binding `100 Hz -> key "w"`, one match
frame: the trace is a single press, the scan ends "held", and presses exceed
releases by one. -/
theorem c7_witness :
    scan_pressed ⟨ActType.key, "w"⟩ [Event.keyPress "w"] false =
      some (decide (actionId ⟨ActType.key, "w"⟩ ∈ ["key_w"])) ∧
    press_count ⟨ActType.key, "w"⟩ [Event.keyPress "w"] =
      release_count ⟨ActType.key, "w"⟩ [Event.keyPress "w"] +
        (decide (actionId ⟨ActType.key, "w"⟩ ∈ ["key_w"])).toNat :=
  c7_invariant [((100 : ℚ), ⟨ActType.key, "w"⟩)] [some 100] ["key_w"] [Event.keyPress "w"]
    ⟨ActType.key, "w"⟩ (by decide) (by decide) (by decide) (by decide)

/-- Witness for `c10_empty_bindings`: a config with an empty `note_map`, one
held action and a flat spectrum — the frame only releases. -/
theorem c10_witness :
    process_frame ⟨400, 16, 1, []⟩ ["key_w"] [1, 1, 1, 1, 1, 1, 1, 1, 1] =
      some ([], (["key_w"] : List String).flatMap releaseEvents, none) ∧
    ∀ e ∈ (["key_w"] : List String).flatMap releaseEvents, e.isRelease = true :=
  c10_empty_bindings.2 ⟨400, 16, 1, []⟩ ["key_w"] [1, 1, 1, 1, 1, 1, 1, 1, 1] rfl
    (by simp [seg, min_bin, hi_bin])

end PyAudio
